import Mathlib

/-!
Shallow embedding of the statistical/numeric core of netenomics.js
(the Fleon library): SMA, RSI, Bollinger bands, Gini coefficient,
percentile, linear regression, and the GBM path simulator.

JS numbers are modelled as exact rationals (ℚ) where the source computes
with field operations only, and as reals (ℝ) where the source calls
Math.sqrt / Math.exp. A JS computation that produces a non-finite value
(NaN or ±Infinity, always via a division whose denominator is zero in
this code) or reads an undefined array slot is modelled as `none`; every
finite result is `some v`.
-/

namespace Netenomics

/-- Arithmetic mean of a list of rationals: sum divided by length.
This is the spec-level notion of the mean of a window (the internal
`avg` helper of the source). -/
def mean (l : List ℚ) : ℚ := l.sum / l.length

/-- Embedding of Indicators.sma (src/netenomics.js lines 177-186).
Returns `none` for the JS `null` sentinel when `data.length < period`;
otherwise the loop for `i = period .. data.length` pushes
`sum(data.slice(i-period, i)) / period`, i.e. the window starting at
`j = i - period` for `j = 0 .. data.length - period`. -/
def sma (data : List ℚ) (period : ℕ) : Option (List ℚ) :=
  if data.length < period then none
  else some ((List.range (data.length - period + 1)).map (fun j =>
    ((data.drop j).take period).sum / (period : ℚ)))

/-- Embedding of Indicators.rsi (src/netenomics.js lines 192-217),
faithful for `period ≥ 1`. The seeding loop reproduces the source
exactly, including `losses -= Math.abs(diff)` (so the accumulated
`losses` value is ≤ 0). The result is `none` exactly when the final JS
expression divides by zero (`1 + rs = 0`, non-finite in JS); every
finite JS outcome is `some q`. -/
def rsi (data : List ℚ) (period : ℕ) : Option ℚ :=
  if data.length ≤ period then some 50
  else
    let seed := (List.range period).foldl
      (fun (gl : ℚ × ℚ) k =>
        let diff := data.getD (k + 1) 0 - data.getD k 0
        if 0 ≤ diff then (gl.1 + diff, gl.2) else (gl.1, gl.2 - abs diff))
      (0, 0)
    let smoothed := (List.range (data.length - (period + 1))).foldl
      (fun (gl : ℚ × ℚ) k =>
        let i := period + 1 + k
        let diff := data.getD i 0 - data.getD (i - 1) 0
        let currentGain := if 0 ≤ diff then diff else 0
        let currentLoss := if diff < 0 then abs diff else 0
        ((gl.1 * ((period : ℚ) - 1) + currentGain) / (period : ℚ),
         (gl.2 * ((period : ℚ) - 1) + currentLoss) / (period : ℚ)))
      (seed.1 / (period : ℚ), seed.2 / (period : ℚ))
    if smoothed.2 = 0 then some 100
    else
      let rs := smoothed.1 / smoothed.2
      if 1 + rs = 0 then none
      else some (100 - 100 / (1 + rs))

/-- Embedding of Governance.calculateGini (src/netenomics.js lines
466-477). The source sorts a copy ascending and returns
`(n + 1 - 2*(sumNom/sumDen))/n` with
`sumNom = Σ_{i=1..n} (n+1-i)*sorted[i-1]` and `sumDen = Σ sorted`.
When `sumDen = 0` the JS division produces a non-finite value (NaN or
±Infinity), modelled as `none`; every finite JS result is `some q`. -/
def calculateGini (wealthArr : List ℚ) : Option ℚ :=
  let n := wealthArr.length
  if n < 2 then some 0
  else
    let sorted := List.insertionSort (fun a b : ℚ => a ≤ b) wealthArr
    let sumNom := ((List.range n).map (fun j => ((n - j : ℕ) : ℚ) * sorted.getD j 0)).sum
    let sumDen := sorted.sum
    if sumDen = 0 then none
    else some (((n : ℚ) + 1 - 2 * (sumNom / sumDen)) / (n : ℚ))

/-- JS array read `l[i]` for an integer index: `some` value when
`0 ≤ i < length`, `none` for an `undefined` read otherwise. -/
def idxQ (l : List ℚ) (i : ℤ) : Option ℚ :=
  if h : 0 ≤ i ∧ i.toNat < l.length then some (l.get ⟨i.toNat, h.2⟩) else none

/-- Embedding of the internal `_getPercentile` helper (src/netenomics.js
lines 353-363): sort ascending, `pos = (n-1)*p`, `base = floor(pos)`,
`rest = pos - base`; interpolate between `sorted[base]` and
`sorted[base+1]` when the latter exists, else fall back to
`sorted[base]`. A read of an undefined index (and the NaN arithmetic it
causes in JS) is modelled as `none`. -/
def getPercentile (arr : List ℚ) (p : ℚ) : Option ℚ :=
  let sorted := List.insertionSort (fun a b : ℚ => a ≤ b) arr
  let n := sorted.length
  let pos : ℚ := ((n : ℚ) - 1) * p
  let base : ℤ := Int.floor pos
  let rest : ℚ := pos - (base : ℚ)
  match idxQ sorted (base + 1) with
  | some next =>
    match idxQ sorted base with
    | some lo => some (lo + rest * (next - lo))
    | none => none
  | none => idxQ sorted base

/-- Embedding of Forecasting.linearPredict (src/netenomics.js lines
615-631). The denominator `n*sumXX - sumX*sumX` is zero exactly when
`n < 2`; there the JS code divides 0 by 0 and returns a NaN-valued
record without throwing, modelled as `none`. Otherwise the record
`(nextValue, confidence)` is returned. -/
def linearPredict (data : List ℚ) : Option (ℚ × String) :=
  let n := data.length
  let sumX : ℚ := ((List.range n).map (fun i => (i : ℚ))).sum
  let sumY : ℚ := data.sum
  let sumXY : ℚ := ((List.range n).map (fun (i : ℕ) => (i : ℚ) * data.getD i 0)).sum
  let sumXX : ℚ := ((List.range n).map (fun i => (i : ℚ) * (i : ℚ))).sum
  let denom := (n : ℚ) * sumXX - sumX * sumX
  if denom = 0 then none
  else
    let slope := ((n : ℚ) * sumXY - sumX * sumY) / denom
    let intercept := (sumY - slope * sumX) / (n : ℚ)
    some (slope * (n : ℚ) + intercept,
      if 1 / 10 < abs slope then "HIGH_TREND" else "STAGNANT")

/-- Record returned per window position by Indicators.bollingerBands. -/
structure BollingerBand where
  middle : ℝ
  upper : ℝ
  lower : ℝ

/-- Embedding of Indicators.bollingerBands (src/netenomics.js lines
223-238): compute the sma sequence (propagating its `null` sentinel),
then for each sma position `idx` take the window
`data.slice(idx, idx + period)`, its population variance around the sma
value, `sd = sqrt(variance)`, and the record `middle = sma`,
`upper = middle + sd*stdDevMult`, `lower = middle - sd*stdDevMult`. -/
noncomputable def bollingerBands (data : List ℚ) (period : ℕ) (stdDevMult : ℝ) :
    Option (List BollingerBand) :=
  match sma data period with
  | none => none
  | some smaArr => some (smaArr.enum.map (fun q =>
      let idx : ℕ := q.1
      let s : ℚ := q.2
      let window := (data.drop idx).take period
      let variance : ℚ := (window.map (fun b => (b - s) ^ 2)).sum / (period : ℚ)
      let sd : ℝ := Real.sqrt (variance : ℝ)
      { middle := (s : ℝ)
        upper := (s : ℝ) + sd * stdDevMult
        lower := (s : ℝ) - sd * stdDevMult }))

/-- One iteration of the loop body of Stochastics.gbmPath
(src/netenomics.js lines 763-768), with `rand i` the value returned by
the i-th call to Math.random():
`s * exp((mu - 0.5*sigma*sigma)*dt + sigma*sqrt(dt)*(rand i * 2 - 1))`. -/
noncomputable def gbmStep (mu sigma dt : ℝ) (rand : ℕ → ℝ) (s : ℝ) (i : ℕ) : ℝ :=
  s * Real.exp ((mu - 0.5 * sigma * sigma) * dt +
    sigma * Real.sqrt dt * (rand i * 2 - 1))

/-- Path suffix of the gbmPath loop: current price `s` before step `i`,
with `k` steps left to run. -/
noncomputable def gbmFrom (mu sigma dt : ℝ) (rand : ℕ → ℝ) (s : ℝ) (i : ℕ) :
    ℕ → List ℝ
  | 0 => [s]
  | k + 1 => s :: gbmFrom mu sigma dt rand (gbmStep mu sigma dt rand s i) (i + 1) k

/-- Embedding of Stochastics.gbmPath (src/netenomics.js lines 758-770)
with the stream of Math.random() draws passed explicitly: `dt = T/steps`,
the path starts at `S0` and each step multiplies the current price by
`exp(drift + diffusion)` and appends it. -/
noncomputable def gbmPath (S0 mu sigma T : ℝ) (steps : ℕ) (rand : ℕ → ℝ) : List ℝ :=
  gbmFrom mu sigma (T / (steps : ℝ)) rand S0 0 steps

/-- Helper: the percentile of a list whose ascending sort is `a :: t` at
`p = 0` is the head `a` (in the two-element-or-more case the interpolation
collapses because `rest = 0`; in the singleton case the undefined upper
read falls back to `sorted[0]`). -/
lemma getPercentile_zero_eq (S : List ℚ) (a : ℚ) (t : List ℚ)
    (hs : List.insertionSort (fun a b : ℚ => a ≤ b) S = a :: t) :
    getPercentile S 0 = some a := by
  simp only [getPercentile, hs]
  cases t with
  | nil => norm_num [idxQ]
  | cons b t2 => norm_num [idxQ]

/-- Helper: the percentile of a list whose ascending sort is `a :: t` at
`p = 1` is the last sorted element: `base = n - 1`, the read at `base + 1`
is undefined, so the code falls back to `sorted[n-1]`. -/
lemma getPercentile_one_eq (S : List ℚ) (a : ℚ) (t : List ℚ)
    (hs : List.insertionSort (fun a b : ℚ => a ≤ b) S = a :: t) :
    getPercentile S 1 = some ((a :: t).get ⟨t.length, by simp⟩) := by
  simp only [getPercentile, hs]
  norm_num [idxQ]

/-- Helper: whenever sma succeeds, bollingerBands succeeds, its middle
values are exactly the sma values, and each band brackets its middle. -/
lemma bollinger_of_sma (data : List ℚ) (period : ℕ) (stdDevMult : ℝ) (smaArr : List ℚ)
    (hsma : sma data period = some smaArr) (hm : 0 ≤ stdDevMult) :
    ∃ bands, bollingerBands data period stdDevMult = some bands ∧
      bands.map BollingerBand.middle = smaArr.map (fun q : ℚ => (q : ℝ)) ∧
      ∀ b ∈ bands, b.lower ≤ b.middle ∧ b.middle ≤ b.upper := by
  refine ⟨smaArr.enum.map (fun q : ℕ × ℚ =>
      let idx : ℕ := q.1
      let s : ℚ := q.2
      let window := (data.drop idx).take period
      let variance : ℚ := (window.map (fun b => (b - s) ^ 2)).sum / (period : ℚ)
      let sd : ℝ := Real.sqrt (variance : ℝ)
      { middle := (s : ℝ)
        upper := (s : ℝ) + sd * stdDevMult
        lower := (s : ℝ) - sd * stdDevMult }), ?_, ?_, ?_⟩
  · simp only [bollingerBands, hsma]
  · rw [List.map_map]
    conv_rhs => rw [← List.enum_map_snd smaArr, List.map_map]
    rfl
  · intro b hb
    rw [List.mem_map] at hb
    obtain ⟨q, hq, hbq⟩ := hb
    have hsd : 0 ≤ Real.sqrt (((((data.drop q.1).take period).map
        (fun b => (b - q.2) ^ 2)).sum / (period : ℚ) : ℚ)) * stdDevMult :=
      mul_nonneg (Real.sqrt_nonneg _) hm
    rw [← hbq]
    exact ⟨sub_le_self _ hsd, le_add_of_nonneg_right hsd⟩

/-- Helper: the gbm path suffix with k steps left has k + 1 elements. -/
lemma gbmFrom_length (mu sigma dt : ℝ) (rand : ℕ → ℝ) :
    ∀ (k : ℕ) (s : ℝ) (i : ℕ), (gbmFrom mu sigma dt rand s i k).length = k + 1 := by
  intro k
  induction k with
  | zero => intro s i; rfl
  | succ k ih => intro s i; simp only [gbmFrom, List.length_cons, ih]

/-- Helper: the gbm path suffix starts at the current price. -/
lemma gbmFrom_get_zero (mu sigma dt : ℝ) (rand : ℕ → ℝ) (k : ℕ) (s : ℝ) (i : ℕ) :
    (gbmFrom mu sigma dt rand s i k).get? 0 = some s := by
  cases k <;> rfl

/-- Helper: consecutive elements of the gbm path suffix are related by one
gbmStep, consuming the random draw whose index matches the position. -/
lemma gbmFrom_get_succ (mu sigma dt : ℝ) (rand : ℕ → ℝ) :
    ∀ (k j : ℕ), j < k → ∀ (s : ℝ) (i : ℕ),
      (gbmFrom mu sigma dt rand s i k).get? (j + 1)
        = ((gbmFrom mu sigma dt rand s i k).get? j).map
            (fun x => gbmStep mu sigma dt rand x (i + j)) := by
  intro k
  induction k with
  | zero => intro j hj; omega
  | succ k ih =>
    intro j hj s i
    cases j with
    | zero =>
      rw [gbmFrom]
      rw [List.get?_cons_succ, List.get?_cons_zero, gbmFrom_get_zero]
      simp
    | succ j =>
      rw [gbmFrom, List.get?_cons_succ, List.get?_cons_succ,
        ih j (by omega) (gbmStep mu sigma dt rand s i) (i + 1)]
      have : i + 1 + j = i + (j + 1) := by omega
      rw [this]

/-- Claim C1: the spec asserts Indicators.rsi always returns a value in
[0, 100]. The code refutes this: on the series [10, 9, 11] with period 2
it returns 200, because the seeding loop executes
`losses -= Math.abs(diff)`, driving the smoothed average loss negative. -/
theorem C1_rsi_escapes_range : rsi [10, 9, 11] 2 = some 200 ∧ ¬ (200 : ℚ) ≤ 100 := by
  constructor
  · norm_num [rsi, List.range_succ]
  · norm_num

/-- Claim C2: for len(S) ≥ period ≥ 1, sma returns exactly
len(S) - period + 1 values, the j-th being the arithmetic mean of the
window S[j .. j+period-1]; for len(S) < period it returns the sentinel
(none, not an exception); and sma([1,2,3,4,5], 3) = [2, 3, 4]. -/
theorem C2_sma_windows (data : List ℚ) (period : ℕ) (hp : 1 ≤ period) :
    (period ≤ data.length →
      ∃ out, sma data period = some out ∧
        out.length = data.length - period + 1 ∧
        ∀ j, j < out.length → out.getD j 0 = mean ((data.drop j).take period)) ∧
    (data.length < period → sma data period = none) ∧
    sma [1, 2, 3, 4, 5] 3 = some [2, 3, 4] := by
  refine ⟨?_, ?_, by norm_num [sma, List.range_succ]⟩
  · intro h
    have hnot : ¬ (data.length < period) := Nat.not_lt.mpr h
    refine ⟨(List.range (data.length - period + 1)).map (fun j =>
        ((data.drop j).take period).sum / (period : ℚ)), ?_, ?_, ?_⟩
    · simp [sma, hnot]
    · simp
    · intro j hj
      simp only [List.length_map, List.length_range] at hj
      rw [List.getD_eq_getElem?_getD]
      simp only [List.getElem?_map, List.getElem?_range, hj]
      have hw : ((data.drop j).take period).length = period := by
        simp only [List.length_take, List.length_drop]
        omega
      simp only [Option.map_some', Option.getD_some, mean, hw]
  · intro h
    simp [sma, h]

/-- Witness for C2 at S = [1,2,3,4,5], period = 3. -/
theorem C2_sma_windows_witness :
    (1 ≤ 3 ∧
      ((3 : ℕ) ≤ ([1, 2, 3, 4, 5] : List ℚ).length →
        ∃ out, sma [1, 2, 3, 4, 5] 3 = some out ∧
          out.length = ([1, 2, 3, 4, 5] : List ℚ).length - 3 + 1 ∧
          ∀ j, j < out.length →
            out.getD j 0 = mean ((([1, 2, 3, 4, 5] : List ℚ).drop j).take 3)) ∧
      (([1, 2, 3, 4, 5] : List ℚ).length < 3 → sma [1, 2, 3, 4, 5] 3 = none) ∧
      sma [1, 2, 3, 4, 5] 3 = some [2, 3, 4]) :=
  ⟨by norm_num, C2_sma_windows [1, 2, 3, 4, 5] 3 (by norm_num)⟩

/-- Claim C3: the spec asserts calculateGini returns exactly 0 on an
all-zero wealth array (guarding the zero weight sum) and on arrays of
fewer than 2 entries. The code has no such guard: on [0, 0] it divides
by the zero weight sum and produces a non-finite value (none in this
model, NaN in JS); the n < 2 branch does return 0. -/
theorem C3_gini_zero_guard_missing :
    calculateGini [0, 0] = none ∧ calculateGini [] = some 0 ∧ calculateGini [7] = some 0 := by
  refine ⟨?_, ?_, ?_⟩
  · norm_num [calculateGini, List.insertionSort, List.orderedInsert, List.range_succ]
  · norm_num [calculateGini]
  · norm_num [calculateGini]

/-- Claim C4: the spec asserts linearPredict fails loudly with
InsufficientDataError when given fewer than 2 points. The code refutes
this: it performs no check, divides zero by zero, and silently returns a
NaN-valued record (none in this model); on 2 points it works. -/
theorem C4_linearPredict_silent_nan :
    linearPredict [] = none ∧ linearPredict [5] = none ∧
    linearPredict [1, 2] = some (3, "HIGH_TREND") := by
  refine ⟨?_, ?_, ?_⟩
  · norm_num [linearPredict]
  · norm_num [linearPredict, List.range_succ]
  · norm_num [linearPredict, List.range_succ]

/-- Claim C5: for len(S) ≥ period and stdDevMult ≥ 0, bollingerBands
succeeds; each record's middle equals the sma value at the same position,
and lower ≤ middle ≤ upper since the band half-width
sqrt(variance)*stdDevMult is non-negative. -/
theorem C5_bollinger_bands (data : List ℚ) (period : ℕ) (stdDevMult : ℝ)
    (hp : 1 ≤ period) (hlen : period ≤ data.length) (hm : 0 ≤ stdDevMult) :
    ∃ bands smaArr,
      bollingerBands data period stdDevMult = some bands ∧
      sma data period = some smaArr ∧
      bands.map BollingerBand.middle = smaArr.map (fun q : ℚ => (q : ℝ)) ∧
      ∀ b ∈ bands, b.lower ≤ b.middle ∧ b.middle ≤ b.upper := by
  have hnot : ¬ (data.length < period) := Nat.not_lt.mpr hlen
  have hsma : sma data period = some ((List.range (data.length - period + 1)).map (fun j =>
      ((data.drop j).take period).sum / (period : ℚ))) := by
    simp [sma, hnot]
  obtain ⟨bands, h1, h2, h3⟩ := bollinger_of_sma data period stdDevMult _ hsma hm
  exact ⟨bands, _, h1, hsma, h2, h3⟩

/-- Witness for C5 at S = [1,2,3,4], period = 2, stdDevMult = 2. -/
theorem C5_bollinger_bands_witness :
    (1 ≤ 2 ∧ 2 ≤ ([1, 2, 3, 4] : List ℚ).length ∧ (0 : ℝ) ≤ 2 ∧
      ∃ bands smaArr,
        bollingerBands [1, 2, 3, 4] 2 (2 : ℝ) = some bands ∧
        sma [1, 2, 3, 4] 2 = some smaArr ∧
        bands.map BollingerBand.middle = smaArr.map (fun q : ℚ => (q : ℝ)) ∧
        ∀ b ∈ bands, b.lower ≤ b.middle ∧ b.middle ≤ b.upper) :=
  ⟨by norm_num, by norm_num, by norm_num,
    C5_bollinger_bands [1, 2, 3, 4] 2 2 (by norm_num) (by norm_num) (by norm_num)⟩

/-- Claim C6: for any non-empty series, the percentile routine returns
the minimum of the series at p = 0 and the maximum at p = 1. -/
theorem C6_percentile_endpoints (S : List ℚ) (h : S ≠ []) :
    (∃ m, getPercentile S 0 = some m ∧ m ∈ S ∧ ∀ x ∈ S, m ≤ x) ∧
    (∃ M, getPercentile S 1 = some M ∧ M ∈ S ∧ ∀ x ∈ S, x ≤ M) := by
  have hperm : (List.insertionSort (fun a b : ℚ => a ≤ b) S).Perm S :=
    List.perm_insertionSort _ S
  have hsort : List.Sorted (fun a b : ℚ => a ≤ b)
      (List.insertionSort (fun a b : ℚ => a ≤ b) S) :=
    List.sorted_insertionSort _ S
  have hne : List.insertionSort (fun a b : ℚ => a ≤ b) S ≠ [] := by
    intro hc
    apply h
    have hl := hperm.length_eq
    rw [hc] at hl
    exact List.length_eq_zero.mp hl.symm
  obtain ⟨a, t, hs⟩ := List.exists_cons_of_ne_nil hne
  rw [hs] at hperm hsort
  constructor
  · refine ⟨a, getPercentile_zero_eq S a t hs,
      hperm.mem_iff.mp (List.mem_cons_self a t), ?_⟩
    intro x hx
    rcases List.mem_cons.mp (hperm.mem_iff.mpr hx) with hxa | hxt
    · exact le_of_eq hxa.symm
    · exact (List.sorted_cons.mp hsort).1 x hxt
  · refine ⟨(a :: t).get ⟨t.length, by simp⟩, getPercentile_one_eq S a t hs,
      hperm.mem_iff.mp (List.get_mem _ _ _), ?_⟩
    intro x hx
    obtain ⟨i, hi⟩ := List.mem_iff_get.mp (hperm.mem_iff.mpr hx)
    rw [← hi]
    exact List.Sorted.rel_get_of_le hsort (by
      have := i.2
      simp only [List.length_cons] at this
      exact Fin.mk_le_mk.mpr (by omega))

/-- Witness for C6 at S = [3, 1, 2]. -/
theorem C6_percentile_endpoints_witness :
    (([3, 1, 2] : List ℚ) ≠ [] ∧
      ((∃ m, getPercentile [3, 1, 2] 0 = some m ∧ m ∈ ([3, 1, 2] : List ℚ) ∧
          ∀ x ∈ ([3, 1, 2] : List ℚ), m ≤ x) ∧
        (∃ M, getPercentile [3, 1, 2] 1 = some M ∧ M ∈ ([3, 1, 2] : List ℚ) ∧
          ∀ x ∈ ([3, 1, 2] : List ℚ), x ≤ M))) :=
  ⟨List.cons_ne_nil 3 [1, 2], C6_percentile_endpoints [3, 1, 2] (List.cons_ne_nil 3 [1, 2])⟩

/-- Claim C8: gbmPath returns a path of length steps + 1 starting at S0,
each element obtained from the previous one by multiplying with
exp((mu - 0.5*sigma^2)*dt + sigma*sqrt(dt)*(2*U_i - 1)), dt = T/steps and
U_i the i-th uniform draw. -/
theorem C8_gbm_path (S0 mu sigma T : ℝ) (steps : ℕ) (rand : ℕ → ℝ) (h : 1 ≤ steps) :
    (gbmPath S0 mu sigma T steps rand).length = steps + 1 ∧
    (gbmPath S0 mu sigma T steps rand).get? 0 = some S0 ∧
    ∀ i, i < steps →
      (gbmPath S0 mu sigma T steps rand).get? (i + 1)
        = ((gbmPath S0 mu sigma T steps rand).get? i).map
            (fun s => s * Real.exp ((mu - 0.5 * sigma ^ 2) * (T / (steps : ℝ)) +
              sigma * Real.sqrt (T / (steps : ℝ)) * (2 * rand i - 1))) := by
  refine ⟨gbmFrom_length mu sigma (T / (steps : ℝ)) rand steps S0 0,
    gbmFrom_get_zero mu sigma (T / (steps : ℝ)) rand steps S0 0, ?_⟩
  intro i hi
  rw [gbmPath, gbmFrom_get_succ mu sigma (T / (steps : ℝ)) rand steps i hi S0 0]
  congr 1
  funext x
  rw [gbmStep]
  have harg : (mu - 0.5 * sigma * sigma) * (T / (steps : ℝ)) +
      sigma * Real.sqrt (T / (steps : ℝ)) * (rand (0 + i) * 2 - 1)
      = (mu - 0.5 * sigma ^ 2) * (T / (steps : ℝ)) +
        sigma * Real.sqrt (T / (steps : ℝ)) * (2 * rand i - 1) := by
    rw [Nat.zero_add]
    ring
  rw [harg]

/-- Witness for C8 at S0 = 1, mu = 0, sigma = 0, T = 1, steps = 1, and
the constant-zero random stream. -/
theorem C8_gbm_path_witness :
    (1 ≤ 1 ∧
      ((gbmPath 1 0 0 1 1 (fun _ => 0)).length = 1 + 1 ∧
        (gbmPath 1 0 0 1 1 (fun _ => 0)).get? 0 = some 1 ∧
        ∀ i, i < 1 →
          (gbmPath 1 0 0 1 1 (fun _ => 0)).get? (i + 1)
            = ((gbmPath 1 0 0 1 1 (fun _ => 0)).get? i).map
                (fun s => s * Real.exp ((0 - 0.5 * 0 ^ 2) * (1 / ((1 : ℕ) : ℝ)) +
                  0 * Real.sqrt (1 / ((1 : ℕ) : ℝ)) *
                    (2 * (fun _ : ℕ => (0 : ℝ)) i - 1))))) :=
  ⟨by norm_num, C8_gbm_path 1 0 0 1 1 (fun _ => 0) (by norm_num)⟩

/-- Claim C9: calculateGini is permutation-invariant, because it sorts
(a copy of) its input before computing; any two permuted wealth arrays
produce the same result. -/
theorem C9_gini_permutation (w w' : List ℚ) (h : w.Perm w') :
    calculateGini w = calculateGini w' := by
  have hlen : w.length = w'.length := h.length_eq
  have hsort : List.insertionSort (fun a b : ℚ => a ≤ b) w
      = List.insertionSort (fun a b : ℚ => a ≤ b) w' :=
    List.eq_of_perm_of_sorted
      ((List.perm_insertionSort _ w).trans (h.trans (List.perm_insertionSort _ w').symm))
      (List.sorted_insertionSort _ w) (List.sorted_insertionSort _ w')
  simp only [calculateGini, hlen, hsort]

/-- Witness for C9 at w = [1, 2], w' = [2, 1]. -/
theorem C9_gini_permutation_witness :
    (([1, 2] : List ℚ).Perm [2, 1] ∧ calculateGini [1, 2] = calculateGini [2, 1]) :=
  ⟨List.Perm.swap 2 1 [], C9_gini_permutation [1, 2] [2, 1] (List.Perm.swap 2 1 [])⟩

/-- Claim C10: on a single-element series the percentile routine returns
that element for every p in [0, 1]: pos = (1-1)*p = 0, the read at
base + 1 is undefined, and the code falls back to sorted[0] without
interpolating. -/
theorem C10_percentile_singleton (x p : ℚ) (h0 : 0 ≤ p) (h1 : p ≤ 1) :
    getPercentile [x] p = some x := by
  have hs : List.insertionSort (fun a b : ℚ => a ≤ b) [x] = [x] := rfl
  simp only [getPercentile, hs]
  norm_num [idxQ]

/-- Witness for C10 at x = 7, p = 1/2. -/
theorem C10_percentile_singleton_witness :
    ((0 : ℚ) ≤ 1 / 2 ∧ (1 / 2 : ℚ) ≤ 1 ∧ getPercentile [7] (1 / 2) = some 7) :=
  ⟨by norm_num, by norm_num, C10_percentile_singleton 7 (1 / 2) (by norm_num) (by norm_num)⟩

end Netenomics
